import Mathlib

set_option maxHeartbeats 1000000

namespace AIBuilderHub

/-- Status of a pipeline task (enum `TaskStatus` in pipeline/manager.py). -/
inductive TaskStatus where
  | pending
  | running
  | completed
  | failed
  | skipped
deriving DecidableEq

/-- A single task in a pipeline (class `Task`): a name, a work function, a
dependency list and mutable run state.  The work function takes the shared
context and returns the (possibly mutated) context together with either a
result value (normal return) or a raised error message (exception). -/
structure Task (σ α : Type) where
  name : String
  func : σ → σ × Except String α
  description : String := ""
  dependencies : List String := []
  status : TaskStatus := .pending
  result : Option α := none
  error : Option String := none
  started_at : Option Nat := none
  completed_at : Option Nat := none

variable {σ α : Type}

/-- `Task.can_run`: true iff every dependency is among the completed names. -/
def Task.can_run (t : Task σ α) (completed_tasks : List String) : Bool :=
  t.dependencies.all (fun dep => completed_tasks.contains dep)

/-- Everything `Task.execute` produces: the updated task, the context after the
work function ran, the outcome (normal result or re-raised error) and the
advanced clock.  The clock models successive `datetime.now()` calls. -/
structure TaskExecOut (σ α : Type) where
  task : Task σ α
  ctx : σ
  outcome : Except String α
  now : Nat

/-- `Task.execute`: set status Running and the start timestamp, run the work
function; on success store the result and set status Completed, on an
exception set status Failed and record the error text and re-raise; the
completion timestamp is recorded on both paths (the `finally` block). -/
def Task.execute (t : Task σ α) (context : σ) (now : Nat) : TaskExecOut σ α :=
  let t1 : Task σ α := { t with status := .running, started_at := some now }
  match t.func context with
  | (ctx2, Except.ok v) =>
      { task := { t1 with result := some v, status := .completed, completed_at := some (now + 1) }
        ctx := ctx2
        outcome := Except.ok v
        now := now + 2 }
  | (ctx2, Except.error e) =>
      { task := { t1 with status := .failed, error := some e, completed_at := some (now + 1) }
        ctx := ctx2
        outcome := Except.error e
        now := now + 2 }

/-- A workflow pipeline (class `Pipeline`).  The Python `tasks` dict is modelled
as an insertion-ordered list of tasks with (in reachable states) unique names. -/
structure Pipeline (σ α : Type) where
  name : String
  description : String := ""
  tasks : List (Task σ α) := []
  execution_order : List String := []
  context : σ

def Pipeline.taskNames (p : Pipeline σ α) : List String :=
  p.tasks.map (fun t => t.name)

/-- `self.tasks.get(name)`: the task stored under a name, if any. -/
def Pipeline.findTask (p : Pipeline σ α) (name : String) : Option (Task σ α) :=
  p.tasks.find? (fun t => t.name == name)

/-- `Pipeline.add_task`: `self.tasks[task.name] = task` (dict insert keeps the
original position of an existing key, otherwise appends). -/
def Pipeline.add_task (p : Pipeline σ α) (t : Task σ α) : Pipeline σ α :=
  if p.tasks.any (fun u => u.name == t.name) then
    { p with tasks := p.tasks.map (fun u => if u.name == t.name then t else u) }
  else
    { p with tasks := p.tasks ++ [t] }

/-- `Pipeline.remove_task`: delete the task stored under the name, if any. -/
def Pipeline.remove_task (p : Pipeline σ α) (name : String) : Pipeline σ α :=
  { p with tasks := p.tasks.filter (fun u => u.name != name) }

/-- `Pipeline._has_circular_dependency`: depth-first search with a fresh copy
of the visited set per branch.  The Python recursion always terminates because
the visited set grows along the call path, so a fuel parameter strictly larger
than the possible path length makes the embedding exact. -/
def Pipeline.has_circular_dependency (p : Pipeline σ α) :
    Nat → String → List String → Bool
  | 0, _, _ => false
  | fuel + 1, task_name, visited =>
    if task_name ∈ visited then true
    else
      match p.findTask task_name with
      | none => false
      | some t =>
        t.dependencies.any (fun dep =>
          p.has_circular_dependency fuel dep (task_name :: visited))

/-- The single-quote character used in validation messages. -/
def sq : String := String.singleton (Char.ofNat 39)

def circularMsg (task_name : String) : String :=
  "Circular dependency detected for task: " ++ task_name

def missingMsg (task_name dep : String) : String :=
  "Task " ++ sq ++ task_name ++ sq ++ " depends on missing task " ++ sq ++ dep ++ sq

/-- `Pipeline.validate`: one circular-dependency message per task whose DFS
finds a repeated name, then one message per dependency name absent from the
task mapping. -/
def Pipeline.validate (p : Pipeline σ α) : List String :=
  (p.tasks.filterMap (fun t =>
      if p.has_circular_dependency (p.tasks.length + 2) t.name [] then
        some (circularMsg t.name)
      else none))
  ++ p.tasks.flatMap (fun t =>
      t.dependencies.filterMap (fun dep =>
        if (p.findTask dep).isNone then some (missingMsg t.name dep) else none))

/-- The dictionary returned by `Pipeline.execute` and
`PipelineManager.execute_pipeline`; each optional field models the presence or
absence of the corresponding key. -/
structure ExecResult (σ : Type) where
  success : Bool
  errors : Option (List String) := none
  completed_tasks : Option (List String) := none
  failed_tasks : Option (List String) := none
  execution_order : Option (List String) := none
  context : Option σ := none
  error : Option String := none

/-- The mutable state of the scheduling loop inside `Pipeline.execute`:
the task objects, the local `completed_tasks` and `failed_tasks` lists, the
pipeline's `execution_order`, the shared context and the clock. -/
structure ExecState (σ α : Type) where
  tasks : List (Task σ α)
  completed : List String
  failed : List String
  order : List String
  ctx : σ
  now : Nat

/-- One `task.execute(...)` call inside the round loop: run the named task,
append its name to `completed_tasks` and `execution_order` on success, or to
`failed_tasks` when the work function raised (the exception is caught here). -/
def execStep (st : ExecState σ α) (name : String) : ExecState σ α :=
  match st.tasks.find? (fun t => t.name == name) with
  | none => st
  | some t =>
    let out := t.execute st.ctx st.now
    let tasks2 := st.tasks.map (fun u => if u.name == name then out.task else u)
    match out.outcome with
    | Except.ok _ =>
        { st with tasks := tasks2, ctx := out.ctx, now := out.now,
                  completed := st.completed ++ [name], order := st.order ++ [name] }
    | Except.error _ =>
        { st with tasks := tasks2, ctx := out.ctx, now := out.now,
                  failed := st.failed ++ [name] }

/-- The `runnable_tasks` list: Pending tasks whose dependencies are satisfied. -/
def runnableTasks (st : ExecState σ α) : List (Task σ α) :=
  st.tasks.filter (fun t =>
    decide (t.status = TaskStatus.pending) && t.can_run st.completed)

/-- Mark every remaining Pending task Skipped (the stuck-pipeline sweep). -/
def skipPending (tasks : List (Task σ α)) : List (Task σ α) :=
  tasks.map (fun t =>
    if t.status = TaskStatus.pending then { t with status := TaskStatus.skipped } else t)

/-- The `while` loop of `Pipeline.execute`.  Each iteration consumes one unit
of fuel; `none` is fuel exhaustion, which never happens for the fuel used by
`Pipeline.execute` (each round moves at least one task out of Pending). -/
def execLoop : Nat → ExecState σ α → Option (ExecState σ α)
  | 0, _ => none
  | fuel + 1, st =>
    if st.completed.length + st.failed.length < st.tasks.length then
      if (runnableTasks st).isEmpty then
        some { st with tasks := skipPending st.tasks }
      else
        execLoop fuel ((runnableTasks st).foldl (fun s t => execStep s t.name) st)
    else
      some st

/-- The loop state at the top of `Pipeline.execute`: the pipeline's tasks,
fresh `completed_tasks` and `failed_tasks` lists, the pipeline's (not reset)
`execution_order`, the initial context, and the clock at zero. -/
def initState (p : Pipeline σ α) (initial_context : σ) : ExecState σ α :=
  ⟨p.tasks, [], [], p.execution_order, initial_context, 0⟩

/-- `Pipeline.execute` with explicit fuel for the scheduling loop: store the
initial context on the pipeline, validate (returning early on errors), then
run the loop and assemble the result dictionary.  The returned pipeline holds
the mutations `execute` makes to `self`. -/
def Pipeline.executeWith (p : Pipeline σ α) (initial_context : σ) (fuel : Nat) :
    Option (Pipeline σ α × ExecResult σ) :=
  let p0 : Pipeline σ α := { p with context := initial_context }
  let errors := p0.validate
  if errors.isEmpty then
    match execLoop fuel (initState p0 p0.context) with
    | none => none
    | some st =>
      some ({ p0 with tasks := st.tasks, execution_order := st.order, context := st.ctx },
        { success := st.failed.isEmpty
          completed_tasks := some st.completed
          failed_tasks := some st.failed
          execution_order := some st.order
          context := some st.ctx })
  else
    some (p0, { success := false, errors := some errors,
                completed_tasks := some [], failed_tasks := some [] })

/-- `Pipeline.execute`: the loop needs at most one iteration per task plus the
final check, so `tasks.length + 1` fuel is enough (proved below). -/
def Pipeline.execute (p : Pipeline σ α) (initial_context : σ) :
    Option (Pipeline σ α × ExecResult σ) :=
  p.executeWith initial_context (p.tasks.length + 1)

/-- `PipelineManager` (a `Component` subclass): a registry of pipelines plus
the inherited enabled/initialized flags. -/
structure PipelineManager (σ α : Type) where
  name : String := "pipeline"
  initializedFlag : Bool := false
  enabledFlag : Bool := true
  pipelines : List (String × Pipeline σ α) := []

/-- `PipelineManager.get_pipeline`: `self.pipelines.get(name)`. -/
def PipelineManager.get_pipeline (m : PipelineManager σ α) (name : String) :
    Option (Pipeline σ α) :=
  (m.pipelines.find? (fun q => q.1 == name)).map (fun q => q.2)

/-- `PipelineManager.execute_pipeline`: structured not-found record for an
unknown name, otherwise delegate to `Pipeline.execute` (whose mutation of the
stored pipeline object is modelled by writing it back into the registry). -/
def PipelineManager.execute_pipeline (m : PipelineManager σ α) (name : String)
    (context : σ) : PipelineManager σ α × ExecResult σ :=
  match m.get_pipeline name with
  | none => (m, { success := false, error := some ("Pipeline not found: " ++ name) })
  | some p =>
    match p.execute context with
    | none => (m, { success := false })
    | some (p2, r) =>
      ({ m with pipelines := m.pipelines.map (fun q => if q.1 == name then (q.1, p2) else q) },
       r)

/-- Dependency edge of the pipeline's graph: the task stored under `a` lists
`b` among its dependencies. -/
def depEdgeB (p : Pipeline σ α) (a b : String) : Bool :=
  match p.findTask a with
  | none => false
  | some t => t.dependencies.contains b

def depEdge (p : Pipeline σ α) (a b : String) : Prop := depEdgeB p a b = true

/-- `isWalkB p a l`: the list `a :: l` is a walk along dependency edges. -/
def isWalkB (p : Pipeline σ α) : String → List String → Bool
  | _, [] => true
  | a, b :: l => depEdgeB p a b && isWalkB p b l

/-- The dependency graph has a cycle: some name reaches itself in one or more
edges. -/
def hasCycle (p : Pipeline σ α) : Prop :=
  ∃ n, Relation.TransGen (depEdge p) n n

/-- Every dependency listed by every task names a stored task. -/
def allDepsExist (p : Pipeline σ α) : Prop :=
  ∀ t ∈ p.tasks, ∀ d ∈ t.dependencies, d ∈ p.taskNames

/-! Concrete instances used by the scenario claims and the witnesses.
The context type instantiates the shared mutable dict as an association list;
results are natural numbers. -/

abbrev Ctx := List (String × Nat)

/-- A work function that leaves the context alone and returns normally. -/
def okFn (v : Nat) : Ctx → Ctx × Except String Nat := fun c => (c, Except.ok v)

/-- A work function that raises an exception with the given message. -/
def errFn (e : String) : Ctx → Ctx × Except String Nat := fun c => (c, Except.error e)

/-- Scenario of C1: A raises, B depends on A, C is independent. -/
def failIsoPipeline : Pipeline Ctx Nat :=
  { name := "failure-isolation"
    tasks := [ { name := "A", func := errFn "boom" },
               { name := "B", func := okFn 2, dependencies := ["A"] },
               { name := "C", func := okFn 3 } ]
    context := [] }

/-- Scenario of C6: a fresh linear chain A → B → C, all succeeding. -/
def chainPipeline : Pipeline Ctx Nat :=
  { name := "chain"
    tasks := [ { name := "A", func := okFn 1 },
               { name := "B", func := okFn 2, dependencies := ["A"] },
               { name := "C", func := okFn 3, dependencies := ["B"] } ]
    context := [] }

/-- A failing task used by the C5 witness. -/
def failTask : Task Ctx Nat := { name := "w1", func := errFn "boom" }

/-- A succeeding task used by the C5 witness. -/
def okTask : Task Ctx Nat := { name := "w2", func := okFn 5 }

/-- A task with a dependency on a name that is not in its pipeline. -/
def danglingTask : Task Ctx Nat :=
  { name := "X", func := okFn 1, dependencies := ["nope"] }

/-- Pipeline with a missing dependency, used by C2 and C3. -/
def missPipeline : Pipeline Ctx Nat :=
  { name := "miss", tasks := [danglingTask], context := [("x", 1)] }

/-- Pipeline whose only task already has status Completed (used by C10). -/
def donePipeline : Pipeline Ctx Nat :=
  { name := "done"
    tasks := [ { name := "A", func := okFn 1, status := TaskStatus.completed } ]
    execution_order := ["A"]
    context := [("seed", 0)] }

/-- Pipeline carrying stale history in execution_order (used by C7). -/
def stalePipeline : Pipeline Ctx Nat :=
  { name := "stale"
    tasks := [ { name := "N", func := okFn 7 } ]
    execution_order := ["old1", "old2"]
    context := [] }

/-- An empty manager, used by the C8 witness. -/
def emptyManager : PipelineManager Ctx Nat := {}

/-- C1: during Pipeline.execute on a validating pipeline, a task whose work
function raises is added to failed_tasks and the exception does not escape
execute (the run returns a result record); with A raising, B depending on A
and C independent: A ends in failed_tasks, B ends with status Skipped and is
in neither completed_tasks nor failed_tasks, C ends in completed_tasks, and
success is false. -/
theorem C1_failure_isolation :
    failIsoPipeline.validate = [] ∧
    (failIsoPipeline.execute []).map (fun q =>
        (q.2.success, q.2.completed_tasks, q.2.failed_tasks,
         (q.1.findTask "B").map Task.status))
      = some (false, some ["C"], some ["A"], some TaskStatus.skipped) ∧
    (failIsoPipeline.execute []).map (fun q =>
        ((q.2.completed_tasks.getD []).contains "B",
         (q.2.failed_tasks.getD []).contains "B"))
      = some (false, false) := by
  decide

/-- C6: on a fresh linear chain A → B → C whose work functions all succeed,
execute runs the tasks in exactly that order and both the returned
execution_order and the pipeline's execution_order equal [A, B, C]. -/
theorem C6_linear_chain_order :
    chainPipeline.validate = [] ∧
    (chainPipeline.execute []).map (fun q =>
        (q.2.success, q.2.completed_tasks, q.2.execution_order,
         q.1.execution_order))
      = some (true, some ["A", "B", "C"], some ["A", "B", "C"], ["A", "B", "C"]) := by
  decide

/-- C5: Task.execute records the completion timestamp on both outcomes and the
start timestamp always; when the work function raises it sets status Failed,
stores the error text and re-raises the error to the caller; when it succeeds
it stores the return value as the result, sets status Completed and returns
that value. -/
theorem C5_task_execute (t : Task σ α) (context : σ) (now : Nat) :
    ((t.execute context now).task.completed_at = some (now + 1) ∧
     (t.execute context now).task.started_at = some now) ∧
    (∀ e, (t.func context).2 = Except.error e →
      (t.execute context now).task.status = TaskStatus.failed ∧
      (t.execute context now).task.error = some e ∧
      (t.execute context now).outcome = Except.error e) ∧
    (∀ v, (t.func context).2 = Except.ok v →
      (t.execute context now).task.status = TaskStatus.completed ∧
      (t.execute context now).task.result = some v ∧
      (t.execute context now).outcome = Except.ok v) := by
  rcases h : t.func context with ⟨ctx2, res⟩
  cases res <;> simp [Task.execute, h]

/-- Witness for C5 at a concrete failing task and a concrete succeeding one. -/
theorem C5_witness :
    ((failTask.execute [] 0).task.status = TaskStatus.failed ∧
     (failTask.execute [] 0).task.error = some "boom" ∧
     (failTask.execute [] 0).task.completed_at = some 1) ∧
    ((okTask.execute [] 0).task.status = TaskStatus.completed ∧
     (okTask.execute [] 0).task.result = some 5 ∧
     (okTask.execute [] 0).task.completed_at = some 1) := by
  have h1 := C5_task_execute failTask [] 0
  have h2 := C5_task_execute okTask [] 0
  exact ⟨⟨(h1.2.1 "boom" rfl).1, (h1.2.1 "boom" rfl).2.1, h1.1.1⟩,
         ⟨(h2.2.2 5 rfl).1, (h2.2.2 5 rfl).2.1, h2.1.1⟩⟩

/-- C8: for a name not in the registry, execute_pipeline returns the record
with success false and the error string "Pipeline not found: name", raises
nothing (it is a total function returning that record), carries none of the
task-list or errors keys of a pipeline-level result, and leaves the manager
unchanged. -/
theorem C8_unknown_pipeline_name (m : PipelineManager σ α) (name : String)
    (context : σ) (h : m.get_pipeline name = none) :
    m.execute_pipeline name context
      = (m, { success := false, error := some ("Pipeline not found: " ++ name) }) ∧
    (m.execute_pipeline name context).2.errors = none ∧
    (m.execute_pipeline name context).2.completed_tasks = none ∧
    (m.execute_pipeline name context).2.failed_tasks = none ∧
    (m.execute_pipeline name context).2.execution_order = none ∧
    (m.execute_pipeline name context).1 = m := by
  simp [PipelineManager.execute_pipeline, h]

/-- Witness for C8: the empty manager and the name "nope". -/
theorem C8_witness :
    emptyManager.execute_pipeline "nope" []
      = (emptyManager,
         { success := false, error := some ("Pipeline not found: " ++ "nope") }) :=
  (C8_unknown_pipeline_name emptyManager "nope" [] rfl).1

/-! Lemmas about one step and one round of the scheduling loop. -/

theorem Task.execute_name (t : Task σ α) (c : σ) (n : Nat) :
    (t.execute c n).task.name = t.name := by
  rcases h : t.func c with ⟨c2, res⟩
  cases res <;> simp [Task.execute, h]

theorem Task.execute_final_status (t : Task σ α) (c : σ) (n : Nat) :
    (t.execute c n).task.status = TaskStatus.completed ∨
    (t.execute c n).task.status = TaskStatus.failed := by
  rcases h : t.func c with ⟨c2, res⟩
  cases res <;> simp [Task.execute, h]

theorem map_update_names (l : List (Task σ α)) (n : String) (nt : Task σ α)
    (h : nt.name = n) :
    (l.map (fun u => if u.name == n then nt else u)).map Task.name
      = l.map Task.name := by
  induction l with
  | nil => rfl
  | cons a l ih =>
    simp only [List.map_cons, ih, List.cons.injEq, and_true]
    by_cases hc : a.name = n
    · simp [hc, h]
    · simp [hc]

theorem execStep_names (st : ExecState σ α) (n : String) :
    (execStep st n).tasks.map Task.name = st.tasks.map Task.name := by
  rcases hf : st.tasks.find? (fun t => t.name == n) with _ | t
  · simp [execStep, hf]
  · have ht : t.name = n := by simpa using List.find?_some hf
    have hn : (t.execute st.ctx st.now).task.name = n := by
      rw [Task.execute_name, ht]
    have hmap := map_update_names st.tasks n (t.execute st.ctx st.now).task hn
    cases ho : (t.execute st.ctx st.now).outcome with
    | ok v =>
      simp only [execStep, hf, ho]
      simpa using hmap
    | error e =>
      simp only [execStep, hf, ho]
      simpa using hmap

theorem execStep_count (st : ExecState σ α) (n : String)
    (h : n ∈ st.tasks.map Task.name) :
    (execStep st n).completed.length + (execStep st n).failed.length
      = st.completed.length + st.failed.length + 1 := by
  rcases hf : st.tasks.find? (fun t => t.name == n) with _ | t
  · exfalso
    rcases List.mem_map.mp h with ⟨t, ht, hn⟩
    have := List.find?_eq_none.mp hf t ht
    simp [hn] at this
  · cases ho : (t.execute st.ctx st.now).outcome with
    | ok v =>
      simp [execStep, hf, ho]
      omega
    | error e =>
      simp [execStep, hf, ho]
      omega

theorem execStep_order (st : ExecState σ α) (n : String) (base : List String)
    (h : st.order = base ++ st.completed) :
    (execStep st n).order = base ++ (execStep st n).completed := by
  rcases hf : st.tasks.find? (fun t => t.name == n) with _ | t
  · simpa [execStep, hf] using h
  · cases ho : (t.execute st.ctx st.now).outcome with
    | ok v => simp [execStep, hf, ho, h, List.append_assoc]
    | error e => simpa [execStep, hf, ho] using h

theorem foldl_execStep_names (names : List String) (st : ExecState σ α) :
    (names.foldl (fun s m => execStep s m) st).tasks.map Task.name
      = st.tasks.map Task.name := by
  induction names generalizing st with
  | nil => rfl
  | cons a l ih => rw [List.foldl_cons, ih, execStep_names]

theorem foldl_execStep_count (names : List String) (st : ExecState σ α)
    (h : ∀ m ∈ names, m ∈ st.tasks.map Task.name) :
    (names.foldl (fun s m => execStep s m) st).completed.length
      + (names.foldl (fun s m => execStep s m) st).failed.length
      = st.completed.length + st.failed.length + names.length := by
  induction names generalizing st with
  | nil => simp
  | cons a l ih =>
    rw [List.foldl_cons]
    have ha : a ∈ st.tasks.map Task.name := h a (by simp)
    have hrest : ∀ m ∈ l, m ∈ (execStep st a).tasks.map Task.name := by
      intro m hm
      rw [execStep_names]
      exact h m (by simp [hm])
    rw [ih _ hrest, execStep_count st a ha, List.length_cons]
    omega

theorem foldl_execStep_order (names : List String) (st : ExecState σ α)
    (base : List String) (h : st.order = base ++ st.completed) :
    (names.foldl (fun s m => execStep s m) st).order
      = base ++ (names.foldl (fun s m => execStep s m) st).completed := by
  induction names generalizing st with
  | nil => exact h
  | cons a l ih =>
    rw [List.foldl_cons]
    exact ih _ (execStep_order st a base h)

theorem foldl_tasks_eq (ts : List (Task σ α)) (st : ExecState σ α) :
    ts.foldl (fun s t => execStep s t.name) st
      = (ts.map Task.name).foldl (fun s m => execStep s m) st := by
  rw [List.foldl_map]

theorem runnable_names_sub (st : ExecState σ α) :
    ∀ m ∈ (runnableTasks st).map Task.name, m ∈ st.tasks.map Task.name := by
  intro m hm
  rcases List.mem_map.mp hm with ⟨t, ht, rfl⟩
  exact List.mem_map_of_mem _ (List.mem_of_mem_filter ht)

theorem round_count (st : ExecState σ α) :
    ((runnableTasks st).foldl (fun s t => execStep s t.name) st).completed.length
      + ((runnableTasks st).foldl (fun s t => execStep s t.name) st).failed.length
      = st.completed.length + st.failed.length + (runnableTasks st).length := by
  rw [foldl_tasks_eq, foldl_execStep_count _ _ (runnable_names_sub st)]
  simp

theorem round_tasks_length (st : ExecState σ α) :
    ((runnableTasks st).foldl (fun s t => execStep s t.name) st).tasks.length
      = st.tasks.length := by
  have h := foldl_execStep_names ((runnableTasks st).map Task.name) st
  rw [foldl_tasks_eq]
  have := congrArg List.length h
  simpa using this

theorem execLoop_isSome (fuel : Nat) (st : ExecState σ α)
    (h : st.tasks.length - (st.completed.length + st.failed.length) < fuel) :
    (execLoop fuel st).isSome = true := by
  induction fuel generalizing st with
  | zero => omega
  | succ fuel ih =>
    unfold execLoop
    by_cases hc : st.completed.length + st.failed.length < st.tasks.length
    · simp only [hc, if_true]
      by_cases hr : (runnableTasks st).isEmpty
      · simp [hr]
      · simp only [hr, Bool.false_eq_true, if_false]
        apply ih
        have hcount := round_count st
        have hlen := round_tasks_length st
        have hpos : 0 < (runnableTasks st).length := by
          rw [List.length_pos]
          simpa [List.isEmpty_iff] using hr
        omega
    · simp [hc]

/-- C9: Pipeline.execute terminates: the scheduling loop run with fuel
`tasks.length + 1` never exhausts its fuel, because every iteration whose
runnable set is nonempty strictly increases the combined length of
completed_tasks and failed_tasks, and every other iteration exits the loop. -/
theorem C9_execute_terminates :
    (∀ (p : Pipeline σ α) (initial_context : σ),
       (p.execute initial_context).isSome = true) ∧
    (∀ st : ExecState σ α, (runnableTasks st).isEmpty = false →
       st.completed.length + st.failed.length
         < ((runnableTasks st).foldl (fun s t => execStep s t.name) st).completed.length
           + ((runnableTasks st).foldl (fun s t => execStep s t.name) st).failed.length) := by
  constructor
  · intro p initial_context
    unfold Pipeline.execute Pipeline.executeWith
    by_cases he : (Pipeline.validate { p with context := initial_context }).isEmpty
    · simp only [he, if_true]
      have hs := execLoop_isSome (p.tasks.length + 1)
        (initState { p with context := initial_context } initial_context)
        (by simp [initState])
      rcases hx : execLoop (p.tasks.length + 1)
          (initState { p with context := initial_context } initial_context) with _ | st
      · rw [hx] at hs
        simp at hs
      · simp [hx]
    · simp [he]
  · intro st hr
    have hcount := round_count st
    have hpos : 0 < (runnableTasks st).length := by
      rw [List.length_pos]
      simpa [List.isEmpty_iff] using hr
    omega

/-! The normal execution path: validation passed, the loop produced a state. -/

theorem hcd_set_context (p : Pipeline σ α) (c : σ) (fuel : Nat) :
    ∀ (name : String) (visited : List String),
      ({ p with context := c } : Pipeline σ α).has_circular_dependency fuel name visited
        = p.has_circular_dependency fuel name visited := by
  induction fuel with
  | zero => intro name visited; rfl
  | succ fuel ih =>
    intro name visited
    unfold Pipeline.has_circular_dependency
    have hfind : ({ p with context := c } : Pipeline σ α).findTask name
        = p.findTask name := rfl
    rw [hfind]
    cases p.findTask name <;> simp [ih]

theorem validate_set_context (p : Pipeline σ α) (c : σ) :
    (Pipeline.validate { p with context := c } : List String) = p.validate := by
  unfold Pipeline.validate
  congr 1
  congr 1
  funext t
  rw [hcd_set_context]

theorem executeWith_eq (p : Pipeline σ α) (c : σ) (fuel : Nat) :
    p.executeWith c fuel =
      (if p.validate.isEmpty then
        match execLoop fuel (initState p c) with
        | none => none
        | some st =>
          some ({ p with context := st.ctx, tasks := st.tasks, execution_order := st.order },
            { success := st.failed.isEmpty, completed_tasks := some st.completed,
              failed_tasks := some st.failed, execution_order := some st.order,
              context := some st.ctx })
       else
        some ({ p with context := c },
              { success := false, errors := some p.validate,
                completed_tasks := some [], failed_tasks := some [] })) := by
  simp only [Pipeline.executeWith, validate_set_context]
  rfl

theorem execute_normal (p : Pipeline σ α) (initial_context : σ)
    (h : p.validate = []) :
    ∃ st, execLoop (p.tasks.length + 1) (initState p initial_context) = some st ∧
      p.execute initial_context = some
        ({ p with context := st.ctx, tasks := st.tasks, execution_order := st.order },
         { success := st.failed.isEmpty, completed_tasks := some st.completed,
           failed_tasks := some st.failed, execution_order := some st.order,
           context := some st.ctx }) := by
  have hsome := execLoop_isSome (p.tasks.length + 1) (initState p initial_context)
    (by simp [initState])
  rcases hx : execLoop (p.tasks.length + 1) (initState p initial_context) with _ | st
  · rw [hx] at hsome
    simp at hsome
  · refine ⟨st, rfl, ?_⟩
    have he : p.validate.isEmpty = true := by simp [h]
    rw [Pipeline.execute, executeWith_eq, he, if_pos rfl, hx]

theorem execLoop_order (fuel : Nat) (st : ExecState σ α) (base : List String)
    (h : st.order = base ++ st.completed) (st2 : ExecState σ α)
    (hx : execLoop fuel st = some st2) :
    st2.order = base ++ st2.completed := by
  induction fuel generalizing st with
  | zero => simp [execLoop] at hx
  | succ fuel ih =>
    unfold execLoop at hx
    by_cases hc : st.completed.length + st.failed.length < st.tasks.length
    · rw [if_pos hc] at hx
      by_cases hr : (runnableTasks st).isEmpty
      · rw [if_pos hr] at hx
        cases hx
        exact h
      · rw [if_neg hr] at hx
        refine ih _ ?_ hx
        rw [foldl_tasks_eq]
        exact foldl_execStep_order _ _ _ h
    · rw [if_neg hc] at hx
      cases hx
      exact h

/-- C7: Pipeline.execute never clears execution_order: the names completed in
a run are appended after whatever the pipeline's execution_order already held,
both on the pipeline object and in the returned record, so a second run
appends to the first run's history. -/
theorem C7_execution_order_not_cleared (p : Pipeline σ α) (initial_context : σ)
    (h : p.validate = []) :
    ∃ p2 r cs, p.execute initial_context = some (p2, r) ∧
      r.completed_tasks = some cs ∧
      p2.execution_order = p.execution_order ++ cs ∧
      r.execution_order = some (p.execution_order ++ cs) := by
  obtain ⟨st, hx, hex⟩ := execute_normal p initial_context h
  have hord := execLoop_order (p.tasks.length + 1) (initState p initial_context)
      p.execution_order (by simp [initState]) st hx
  exact ⟨_, _, st.completed, hex, rfl, hord, by rw [← hord]⟩

/-- Witness for C7: a pipeline whose execution_order already holds the stale
history ["old1", "old2"]; the new run's completions are appended after it. -/
theorem C7_witness :
    (stalePipeline.execute []).map (fun q => (q.1.execution_order, q.2.execution_order))
      = some (["old1", "old2", "N"], some ["old1", "old2", "N"]) := by
  obtain ⟨p2, r, cs, hx, hcs, ho1, ho2⟩ :=
    C7_execution_order_not_cleared stalePipeline ([] : Ctx) rfl
  have hcomp : (stalePipeline.execute []).map (fun q => q.2.completed_tasks)
      = some (some ["N"]) := by decide
  rw [hx] at hcomp ⊢
  simp only [Option.map_some'] at hcomp ⊢
  rw [hcs] at hcomp
  have hcseq : cs = ["N"] := by
    injection hcomp with h1
    injection h1
  subst hcseq
  rw [ho1, ho2]
  rfl

/-- C3 amended: on a pipeline whose validate() is non-empty, execute returns
immediately with success false, the error list under the errors key and empty
completed and failed lists; no task executes and no task state changes — but
the pipeline's context field is set to the initial context before validation
runs, so that one field is mutated even on the validation-failure path. -/
theorem C3_validation_failure_aborts (p : Pipeline σ α) (initial_context : σ)
    (h : p.validate ≠ []) :
    ∃ p2 r, p.execute initial_context = some (p2, r) ∧
      r.success = false ∧ r.errors = some p.validate ∧
      r.completed_tasks = some [] ∧ r.failed_tasks = some [] ∧
      r.execution_order = none ∧ r.context = none ∧ r.error = none ∧
      p2.tasks = p.tasks ∧ p2.execution_order = p.execution_order ∧
      p2.context = initial_context := by
  have he : p.validate.isEmpty = false := by
    rw [List.isEmpty_eq_false]
    exact h
  rw [Pipeline.execute, executeWith_eq, he]
  exact ⟨_, _, rfl, rfl, rfl, rfl, rfl, rfl, rfl, rfl, rfl, rfl, rfl⟩

/-- Counterexample for C3: a pipeline with a missing dependency and stored
context [("x", 1)].  execute([]) is rejected by validation (errors key
present), yet the pipeline's context — pipeline state — has been mutated to
[] before the errors were detected, so "no pipeline state is mutated before
detection" fails. -/
theorem C3_counterexample :
    (missPipeline.execute []).map (fun q => q.2.errors.isSome) = some true ∧
    missPipeline.context = [("x", 1)] ∧
    (missPipeline.execute []).map (fun q => q.1.context) = some [] ∧
    ([] : Ctx) ≠ [("x", 1)] := by
  decide

/-- Witness for C3 (amended) at the concrete missing-dependency pipeline. -/
theorem C3_witness :
    ∃ p2 r, missPipeline.execute [] = some (p2, r) ∧
      r.success = false ∧ r.errors = some missPipeline.validate ∧
      r.completed_tasks = some [] ∧ r.failed_tasks = some [] ∧
      r.execution_order = none ∧ r.context = none ∧ r.error = none ∧
      p2.tasks = missPipeline.tasks ∧
      p2.execution_order = missPipeline.execution_order ∧
      p2.context = [] :=
  C3_validation_failure_aborts missPipeline [] (by decide)

/-- Witness for C9: the chain pipeline terminates and its first round makes
progress. -/
theorem C9_witness :
    (chainPipeline.execute []).isSome = true ∧
    (initState chainPipeline []).completed.length
        + (initState chainPipeline []).failed.length
      < ((runnableTasks (initState chainPipeline [])).foldl
            (fun s t => execStep s t.name) (initState chainPipeline [])).completed.length
        + ((runnableTasks (initState chainPipeline [])).foldl
            (fun s t => execStep s t.name) (initState chainPipeline [])).failed.length :=
  ⟨C9_execute_terminates.1 chainPipeline [],
   C9_execute_terminates.2 (initState chainPipeline []) (by decide)⟩

/-! Invariant: a task that is still Pending, or was swept to Skipped, never
has its name in completed_tasks or failed_tasks. -/

theorem execStep_pending_inv (st : ExecState σ α) (n : String)
    (h : ∀ t ∈ st.tasks,
      t.status = TaskStatus.pending ∨ t.status = TaskStatus.skipped →
        t.name ∉ st.completed ∧ t.name ∉ st.failed) :
    ∀ t ∈ (execStep st n).tasks,
      t.status = TaskStatus.pending ∨ t.status = TaskStatus.skipped →
        t.name ∉ (execStep st n).completed ∧ t.name ∉ (execStep st n).failed := by
  rcases hf : st.tasks.find? (fun t => t.name == n) with _ | t
  · simpa [execStep, hf] using h
  · have hstat := Task.execute_final_status t st.ctx st.now
    cases ho : (t.execute st.ctx st.now).outcome with
    | ok v =>
      simp only [execStep, hf, ho]
      intro u hu hus
      rcases List.mem_map.mp hu with ⟨w, hw, rfl⟩
      by_cases hwn : w.name = n
      · rw [if_pos (by simp [hwn])] at hus
        rcases hstat with h1 | h1 <;> rw [h1] at hus <;>
          rcases hus with h2 | h2 <;> simp at h2
      · rw [if_neg (by simp [hwn])] at hus ⊢
        refine ⟨?_, (h w hw hus).2⟩
        intro hmem
        rcases List.mem_append.mp hmem with hm | hm
        · exact (h w hw hus).1 hm
        · exact hwn (List.mem_singleton.mp hm)
    | error e =>
      simp only [execStep, hf, ho]
      intro u hu hus
      rcases List.mem_map.mp hu with ⟨w, hw, rfl⟩
      by_cases hwn : w.name = n
      · rw [if_pos (by simp [hwn])] at hus
        rcases hstat with h1 | h1 <;> rw [h1] at hus <;>
          rcases hus with h2 | h2 <;> simp at h2
      · rw [if_neg (by simp [hwn])] at hus ⊢
        refine ⟨(h w hw hus).1, ?_⟩
        intro hmem
        rcases List.mem_append.mp hmem with hm | hm
        · exact (h w hw hus).2 hm
        · exact hwn (List.mem_singleton.mp hm)

theorem skipPending_inv (l : List (Task σ α)) (cs fs : List String)
    (h : ∀ t ∈ l,
      t.status = TaskStatus.pending ∨ t.status = TaskStatus.skipped →
        t.name ∉ cs ∧ t.name ∉ fs) :
    ∀ t ∈ skipPending l,
      t.status = TaskStatus.pending ∨ t.status = TaskStatus.skipped →
        t.name ∉ cs ∧ t.name ∉ fs := by
  intro u hu hus
  simp only [skipPending] at hu
  rcases List.mem_map.mp hu with ⟨w, hw, rfl⟩
  by_cases hp : w.status = TaskStatus.pending
  · rw [if_pos hp]
    exact h w hw (Or.inl hp)
  · rw [if_neg hp] at hus ⊢
    exact h w hw hus

theorem foldl_execStep_pending_inv (names : List String) (st : ExecState σ α)
    (h : ∀ t ∈ st.tasks,
      t.status = TaskStatus.pending ∨ t.status = TaskStatus.skipped →
        t.name ∉ st.completed ∧ t.name ∉ st.failed) :
    ∀ t ∈ (names.foldl (fun s m => execStep s m) st).tasks,
      t.status = TaskStatus.pending ∨ t.status = TaskStatus.skipped →
        t.name ∉ (names.foldl (fun s m => execStep s m) st).completed ∧
        t.name ∉ (names.foldl (fun s m => execStep s m) st).failed := by
  induction names generalizing st with
  | nil => exact h
  | cons a l ih =>
    rw [List.foldl_cons]
    exact ih _ (execStep_pending_inv st a h)

theorem execLoop_pending_inv (fuel : Nat) (st : ExecState σ α)
    (h : ∀ t ∈ st.tasks,
      t.status = TaskStatus.pending ∨ t.status = TaskStatus.skipped →
        t.name ∉ st.completed ∧ t.name ∉ st.failed)
    (st2 : ExecState σ α) (hx : execLoop fuel st = some st2) :
    ∀ t ∈ st2.tasks,
      t.status = TaskStatus.pending ∨ t.status = TaskStatus.skipped →
        t.name ∉ st2.completed ∧ t.name ∉ st2.failed := by
  induction fuel generalizing st with
  | zero => simp [execLoop] at hx
  | succ fuel ih =>
    unfold execLoop at hx
    by_cases hc : st.completed.length + st.failed.length < st.tasks.length
    · rw [if_pos hc] at hx
      by_cases hr : (runnableTasks st).isEmpty
      · rw [if_pos hr] at hx
        cases hx
        exact skipPending_inv st.tasks st.completed st.failed h
      · rw [if_neg hr] at hx
        refine ih _ ?_ hx
        rw [foldl_tasks_eq]
        exact foldl_execStep_pending_inv _ _ h
    · rw [if_neg hc] at hx
      cases hx
      exact h

/-- C4: for a pipeline that passes validation, the returned record has
success true exactly when failed_tasks is empty, and a task that ends the run
with status Skipped appears in neither completed_tasks nor failed_tasks. -/
theorem C4_success_iff_no_failures (p : Pipeline σ α) (initial_context : σ)
    (h : p.validate = []) :
    ∃ p2 r, p.execute initial_context = some (p2, r) ∧
      (r.success = true ↔ r.failed_tasks = some []) ∧
      ∀ t ∈ p2.tasks, t.status = TaskStatus.skipped →
        ∀ cs fs, r.completed_tasks = some cs → r.failed_tasks = some fs →
          t.name ∉ cs ∧ t.name ∉ fs := by
  obtain ⟨st, hx, hex⟩ := execute_normal p initial_context h
  refine ⟨_, _, hex, ?_, ?_⟩
  · show st.failed.isEmpty = true ↔ some st.failed = some []
    simp [List.isEmpty_iff]
  · intro t ht hsk cs fs hcs hfs
    have hinv := execLoop_pending_inv (p.tasks.length + 1)
      (initState p initial_context) (by simp [initState]) st hx
    obtain rfl : cs = st.completed := (Option.some.inj hcs).symm
    obtain rfl : fs = st.failed := (Option.some.inj hfs).symm
    exact hinv t ht (Or.inr hsk)

/-- Witness for C4 at the failure-isolation pipeline, whose task B ends
Skipped. -/
theorem C4_witness :
    ∃ p2 r, failIsoPipeline.execute [] = some (p2, r) ∧
      (r.success = true ↔ r.failed_tasks = some []) ∧
      ∀ t ∈ p2.tasks, t.status = TaskStatus.skipped →
        ∀ cs fs, r.completed_tasks = some cs → r.failed_tasks = some fs →
          t.name ∉ cs ∧ t.name ∉ fs :=
  C4_success_iff_no_failures failIsoPipeline [] (by decide)

theorem skipPending_eq_self (l : List (Task σ α))
    (h : ∀ t ∈ l, t.status ≠ TaskStatus.pending) : skipPending l = l := by
  induction l with
  | nil => rfl
  | cons a l ih =>
    simp only [skipPending, List.map_cons]
    rw [if_neg (h a (by simp))]
    have h2 := ih (fun t ht => h t (by simp [ht]))
    simp only [skipPending] at h2
    rw [h2]

/-- C10: statuses are never reset, so a second execute on a pipeline whose
tasks are all Completed runs no task: it returns success true with empty
completed_tasks and failed_tasks, the stale execution_order, the new
context, and leaves every task (hence every status) unchanged. -/
theorem C10_second_run_noop (p : Pipeline σ α) (initial_context : σ)
    (hv : p.validate = [])
    (hc : ∀ t ∈ p.tasks, t.status = TaskStatus.completed) :
    ∃ p2 r, p.execute initial_context = some (p2, r) ∧
      r.success = true ∧ r.completed_tasks = some [] ∧ r.failed_tasks = some [] ∧
      r.execution_order = some p.execution_order ∧
      r.context = some initial_context ∧
      p2.tasks = p.tasks ∧ p2.execution_order = p.execution_order ∧
      p2.context = initial_context := by
  obtain ⟨st, hx, hex⟩ := execute_normal p initial_context hv
  have hrun : runnableTasks (initState p initial_context) = [] := by
    apply List.filter_eq_nil_iff.mpr
    intro t ht
    have hstat := hc t ht
    simp [hstat]
  have hskip : skipPending (initState p initial_context).tasks
      = (initState p initial_context).tasks :=
    skipPending_eq_self _ (fun t ht => by rw [hc t ht]; decide)
  have hloop : execLoop (p.tasks.length + 1) (initState p initial_context)
      = some (initState p initial_context) := by
    unfold execLoop
    by_cases h0 : (initState p initial_context).completed.length
        + (initState p initial_context).failed.length
        < (initState p initial_context).tasks.length
    · rw [if_pos h0]
      simp [hrun, hskip]
    · rw [if_neg h0]
  have hst : st = initState p initial_context := by
    rw [hloop] at hx
    exact (Option.some.inj hx).symm
  subst hst
  exact ⟨_, _, hex, rfl, rfl, rfl, rfl, rfl, rfl, rfl, rfl⟩

/-- Witness for C10 at a pipeline whose single task is already Completed. -/
theorem C10_witness :
    ∃ p2 r, donePipeline.execute [] = some (p2, r) ∧
      r.success = true ∧ r.completed_tasks = some [] ∧ r.failed_tasks = some [] ∧
      r.execution_order = some donePipeline.execution_order ∧
      r.context = some [] ∧
      p2.tasks = donePipeline.tasks ∧
      p2.execution_order = donePipeline.execution_order ∧
      p2.context = [] :=
  C10_second_run_noop donePipeline [] (by decide)
    (by
      intro t ht
      simp only [donePipeline] at ht
      rw [List.mem_singleton] at ht
      subst ht
      rfl)

/-! The dependency graph: correspondence between the DFS of
`_has_circular_dependency` and reachability of a cycle. -/

theorem depEdgeB_elim {p : Pipeline σ α} {a b : String}
    (h : depEdgeB p a b = true) :
    ∃ t, p.findTask a = some t ∧ b ∈ t.dependencies := by
  unfold depEdgeB at h
  rcases hf : p.findTask a with _ | t
  · rw [hf] at h
    simp at h
  · rw [hf] at h
    refine ⟨t, rfl, ?_⟩
    simpa [List.elem_iff] using h

theorem depEdge_intro (p : Pipeline σ α) {a b : String} {t : Task σ α}
    (hf : p.findTask a = some t) (hb : b ∈ t.dependencies) :
    depEdge p a b := by
  unfold depEdge depEdgeB
  rw [hf]
  simpa [List.elem_iff] using hb

theorem findTask_mem {p : Pipeline σ α} {a : String} {t : Task σ α}
    (h : p.findTask a = some t) : t ∈ p.tasks ∧ t.name = a := by
  refine ⟨List.mem_of_find?_eq_some h, ?_⟩
  simpa using List.find?_some h

theorem findTask_eq_none_iff {p : Pipeline σ α} {d : String} :
    p.findTask d = none ↔ d ∉ p.taskNames := by
  unfold Pipeline.findTask Pipeline.taskNames
  rw [List.find?_eq_none]
  constructor
  · intro h hd
    rcases List.mem_map.mp hd with ⟨t, ht, rfl⟩
    exact h t ht (by simp)
  · intro h t ht hbeq
    apply h
    have : t.name = d := by simpa using hbeq
    rw [← this]
    exact List.mem_map_of_mem _ ht

theorem findTask_mem_names {p : Pipeline σ α} {a : String} {t : Task σ α}
    (h : p.findTask a = some t) : a ∈ p.taskNames := by
  rcases findTask_mem h with ⟨ht, hn⟩
  rw [← hn]
  exact List.mem_map_of_mem _ ht

theorem isWalk_append (p : Pipeline σ α) (l m : List String) (a : String) :
    isWalkB p a (l ++ m) = true ↔
      isWalkB p a l = true ∧ isWalkB p (l.getLastD a) m = true := by
  induction l generalizing a with
  | nil => simp [isWalkB]
  | cons b l ih =>
    simp only [List.cons_append, isWalkB, Bool.and_eq_true, List.getLastD_cons,
      List.append_eq]
    rw [ih b]
    tauto

theorem transGen_walk {p : Pipeline σ α} {a b : String}
    (h : Relation.TransGen (depEdge p) a b) :
    ∃ zs, isWalkB p a (zs ++ [b]) = true := by
  induction h with
  | single hab =>
    exact ⟨[], by simpa [isWalkB] using hab⟩
  | @tail b' c hab hbc ih =>
    rcases ih with ⟨zs, hw⟩
    refine ⟨zs ++ [b'], ?_⟩
    rw [isWalk_append]
    refine ⟨hw, ?_⟩
    rw [List.getLastD_concat]
    simpa [isWalkB] using hbc

theorem walk_findTask (p : Pipeline σ α) :
    ∀ (l : List String) (a w : String), isWalkB p a (l ++ [w]) = true →
      ∀ x ∈ a :: l, ∃ t, p.findTask x = some t := by
  intro l
  induction l with
  | nil =>
    intro a w hw x hx
    rw [List.mem_singleton] at hx
    subst hx
    simp only [List.nil_append, isWalkB, Bool.and_eq_true] at hw
    rcases depEdgeB_elim hw.1 with ⟨t, hf, _⟩
    exact ⟨t, hf⟩
  | cons b l ih =>
    intro a w hw x hx
    simp only [List.cons_append, isWalkB, Bool.and_eq_true] at hw
    rcases hw with ⟨h1, h2⟩
    rcases List.mem_cons.mp hx with rfl | hx2
    · rcases depEdgeB_elim h1 with ⟨t, hf, _⟩
      exact ⟨t, hf⟩
    · exact ih b w h2 x hx2

theorem not_nodup_decomp {β : Type} (l : List β) (h : ¬ l.Nodup) :
    ∃ a x b c, l = a ++ x :: b ++ x :: c := by
  induction l with
  | nil => exact absurd List.nodup_nil h
  | cons e l ih =>
    by_cases he : e ∈ l
    · rcases List.append_of_mem he with ⟨s, u, rfl⟩
      exact ⟨[], e, s, u, rfl⟩
    · have hl : ¬ l.Nodup := fun hn => h (List.nodup_cons.mpr ⟨he, hn⟩)
      rcases ih hl with ⟨a, x, b, c, rfl⟩
      exact ⟨e :: a, x, b, c, rfl⟩

theorem isWalk_extract (p : Pipeline σ α) (a' : List String) (x : String)
    (r : List String) (u : String)
    (h : isWalkB p u (a' ++ (x :: r)) = true) : isWalkB p x r = true := by
  induction a' generalizing u with
  | nil =>
    simp only [List.nil_append, isWalkB, Bool.and_eq_true] at h
    exact h.2
  | cons e a' ih =>
    simp only [List.cons_append, isWalkB, Bool.and_eq_true] at h
    exact ih e h.2

theorem isWalk_prefix_close (p : Pipeline σ α) (b : List String) (x : String)
    (rest : List String) :
    ∀ s, isWalkB p s (b ++ (x :: rest)) = true →
      isWalkB p s (b ++ [x]) = true := by
  induction b with
  | nil =>
    intro s h
    simp only [List.nil_append, isWalkB, Bool.and_eq_true] at h ⊢
    exact ⟨h.1, trivial⟩
  | cons e b ih =>
    intro s h
    simp only [List.cons_append, isWalkB, Bool.and_eq_true] at h ⊢
    exact ⟨h.1, ih e h.2⟩

theorem closed_walk_shorten (p : Pipeline σ α) :
    ∀ (L : Nat) (u : String) (zs : List String), zs.length ≤ L →
      isWalkB p u (zs ++ [u]) = true →
      ∃ v ws, isWalkB p v (ws ++ [v]) = true ∧ (v :: ws).Nodup := by
  intro L
  induction L with
  | zero =>
    intro u zs hlen hw
    obtain rfl : zs = [] := List.length_eq_zero.mp (Nat.le_zero.mp hlen)
    exact ⟨u, [], hw, by simp⟩
  | succ L ih =>
    intro u zs hlen hw
    by_cases hn : (u :: zs).Nodup
    · exact ⟨u, zs, hw, hn⟩
    · rcases not_nodup_decomp _ hn with ⟨a, x, b, c, hdec⟩
      cases a with
      | nil =>
        simp only [List.nil_append, List.cons_append] at hdec
        injection hdec with h1 h2
        subst h1
        subst h2
        simp only [List.append_assoc, List.cons_append] at hw
        have hclosed := isWalk_prefix_close p b u (c ++ [u]) u hw
        refine ih u b ?_ hclosed
        simp at hlen
        omega
      | cons a0 a' =>
        simp only [List.cons_append] at hdec
        injection hdec with h1 h2
        subst h1
        subst h2
        simp only [List.append_assoc, List.cons_append] at hw
        have hmid := isWalk_extract p a' x (b ++ (x :: (c ++ [u]))) u hw
        have hclosed := isWalk_prefix_close p b x (c ++ [u]) x hmid
        refine ih x b ?_ hclosed
        simp at hlen
        omega

theorem hcd_follows (p : Pipeline σ α) :
    ∀ (l : List String) (name : String) (visited : List String) (fuel : Nat),
      l ≠ [] → isWalkB p name l = true →
      l.getLastD name ∈ name :: visited →
      l.length + 1 ≤ fuel →
      p.has_circular_dependency fuel name visited = true := by
  intro l
  induction l with
  | nil =>
    intro name visited fuel h
    exact absurd rfl h
  | cons b l' ih =>
    intro name visited fuel _ hw hlast hfuel
    obtain ⟨f, rfl⟩ : ∃ f, fuel = f + 1 := ⟨fuel - 1, by omega⟩
    unfold Pipeline.has_circular_dependency
    by_cases hv : name ∈ visited
    · rw [if_pos hv]
    · rw [if_neg hv]
      simp only [isWalkB, Bool.and_eq_true] at hw
      rcases hw with ⟨he, hw2⟩
      rcases depEdgeB_elim he with ⟨t, hf, hb⟩
      rw [hf]
      rw [List.any_eq_true]
      refine ⟨b, hb, ?_⟩
      cases l' with
      | nil =>
        obtain ⟨f2, rfl⟩ : ∃ f2, f = f2 + 1 := ⟨f - 1, by simp at hfuel; omega⟩
        unfold Pipeline.has_circular_dependency
        rw [if_pos ?_]
        simpa [List.getLastD] using hlast
      | cons b2 l'' =>
        apply ih b (name :: visited) f (by simp) hw2 ?_ ?_
        · have : (b2 :: l'').getLastD b ∈ name :: visited := by
            simpa [List.getLastD_cons] using hlast
          exact List.mem_cons.mpr (Or.inr this)
        · simp at hfuel ⊢
          omega

theorem hcd_sound (p : Pipeline σ α) :
    ∀ (fuel : Nat) (name : String) (visited : List String),
      (∀ u ∈ visited, Relation.TransGen (depEdge p) u name) →
      p.has_circular_dependency fuel name visited = true →
      hasCycle p := by
  intro fuel
  induction fuel with
  | zero =>
    intro name visited _ h
    exact absurd h (by simp [Pipeline.has_circular_dependency])
  | succ fuel ih =>
    intro name visited hinv h
    unfold Pipeline.has_circular_dependency at h
    by_cases hv : name ∈ visited
    · exact ⟨name, hinv name hv⟩
    · rw [if_neg hv] at h
      rcases hf : p.findTask name with _ | t
      · rw [hf] at h
        simp at h
      · rw [hf, List.any_eq_true] at h
        rcases h with ⟨d, hd, hrec⟩
        apply ih d (name :: visited) ?_ hrec
        intro u hu
        have hedge : depEdge p name d := depEdge_intro p hf hd
        rcases List.mem_cons.mp hu with rfl | hu2
        · exact Relation.TransGen.single hedge
        · exact Relation.TransGen.tail (hinv u hu2) hedge

theorem validate_eq_nil_iff (p : Pipeline σ α) :
    p.validate = [] ↔
      (∀ t ∈ p.tasks,
        p.has_circular_dependency (p.tasks.length + 2) t.name [] = false) ∧
      (∀ t ∈ p.tasks, ∀ d ∈ t.dependencies, (p.findTask d).isSome = true) := by
  unfold Pipeline.validate
  rw [List.append_eq_nil, List.filterMap_eq_nil_iff, List.flatMap_eq_nil_iff]
  constructor
  · rintro ⟨h1, h2⟩
    constructor
    · intro t ht
      have hh := h1 t ht
      cases hb : p.has_circular_dependency (p.tasks.length + 2) t.name [] with
      | false => rfl
      | true =>
        rw [if_pos hb] at hh
        exact absurd hh (by simp)
    · intro t ht d hd
      have hh := List.filterMap_eq_nil_iff.mp (h2 t ht) d hd
      cases ho : p.findTask d with
      | none =>
        rw [if_pos (by rw [ho]; rfl)] at hh
        exact absurd hh (by simp)
      | some tt => rfl
  · rintro ⟨h1, h2⟩
    constructor
    · intro t ht
      rw [if_neg (by simp [h1 t ht])]
    · intro t ht
      rw [List.filterMap_eq_nil_iff]
      intro d hd
      have hs := h2 t ht d hd
      cases ho : p.findTask d with
      | none =>
        rw [ho] at hs
        simp at hs
      | some tt => rfl

theorem validate_missing_mem (p : Pipeline σ α) (t : Task σ α) (d : String)
    (ht : t ∈ p.tasks) (hd : d ∈ t.dependencies) (hmiss : d ∉ p.taskNames) :
    missingMsg t.name d ∈ p.validate := by
  unfold Pipeline.validate
  rw [List.mem_append]
  right
  rw [List.mem_flatMap]
  refine ⟨t, ht, ?_⟩
  rw [List.mem_filterMap]
  refine ⟨d, hd, ?_⟩
  rw [if_pos (by rw [findTask_eq_none_iff.mpr hmiss]; rfl)]

theorem hasCycle_validate_ne (p : Pipeline σ α) (h : hasCycle p) :
    p.validate ≠ [] := by
  rcases h with ⟨n, hn⟩
  rcases transGen_walk hn with ⟨zs, hw⟩
  rcases closed_walk_shorten p zs.length n zs (le_refl _) hw with ⟨v, ws, hw2, hnd⟩
  rcases walk_findTask p ws v v hw2 v (List.mem_cons_self v ws) with ⟨t, hf⟩
  rcases findTask_mem hf with ⟨ht, htn⟩
  have hsub : ∀ x ∈ v :: ws, x ∈ p.taskNames := by
    intro x hx
    rcases walk_findTask p ws v v hw2 x hx with ⟨tx, hfx⟩
    exact findTask_mem_names hfx
  have hlen : (v :: ws).length ≤ p.taskNames.length :=
    (List.subperm_of_subset hnd fun x hx => hsub x hx).length_le
  have hnames : p.taskNames.length = p.tasks.length := by
    simp [Pipeline.taskNames]
  have hcd : p.has_circular_dependency (p.tasks.length + 2) t.name [] = true := by
    rw [htn]
    apply hcd_follows p (ws ++ [v]) v [] _ (by simp) hw2 ?_ ?_
    · rw [List.getLastD_concat]
      exact List.mem_cons_self _ _
    · simp at hlen ⊢
      omega
  intro hnil
  have hfalse := ((validate_eq_nil_iff p).mp hnil).1 t ht
  rw [hcd] at hfalse
  simp at hfalse

/-- C2: validate() returns the empty list iff every dependency name listed by
every task is a stored task name and the dependency graph has no cycle; and
for any task listing a dependency name absent from the task mapping, validate
returns a message that mentions both that task's name and the missing name. -/
theorem C2_validate_characterization (p : Pipeline σ α) :
    (p.validate = [] ↔ allDepsExist p ∧ ¬ hasCycle p) ∧
    (∀ t ∈ p.tasks, ∀ d ∈ t.dependencies, d ∉ p.taskNames →
      ∃ msg ∈ p.validate, ∃ s1 s2 s3,
        msg = s1 ++ (t.name ++ (s2 ++ (d ++ s3)))) := by
  constructor
  · constructor
    · intro h
      constructor
      · intro t ht d hd
        have hh := ((validate_eq_nil_iff p).mp h).2 t ht d hd
        rcases ho : p.findTask d with _ | t'
        · rw [ho] at hh
          simp at hh
        · exact findTask_mem_names ho
      · intro hc
        exact hasCycle_validate_ne p hc h
    · rintro ⟨hall, hnc⟩
      apply (validate_eq_nil_iff p).mpr
      refine ⟨?_, ?_⟩
      · intro t ht
        cases hb : p.has_circular_dependency (p.tasks.length + 2) t.name [] with
        | false => rfl
        | true => exact absurd (hcd_sound p _ t.name [] (by simp) hb) hnc
      · intro t ht d hd
        have hdm := hall t ht d hd
        rcases List.mem_map.mp hdm with ⟨t', ht', htn'⟩
        rw [Pipeline.findTask, List.find?_isSome]
        exact ⟨t', ht', by simp [htn']⟩
  · intro t ht d hd hm
    exact ⟨missingMsg t.name d, validate_missing_mem p t d ht hd hm,
      "Task " ++ sq, sq ++ " depends on missing task " ++ sq, sq, by
        unfold missingMsg
        simp [String.append_assoc]⟩

/-- Witness for C2 at the pipeline whose task X depends on the absent name
"nope". -/
theorem C2_witness :
    ∃ msg ∈ missPipeline.validate, ∃ s1 s2 s3,
      msg = s1 ++ ("X" ++ (s2 ++ ("nope" ++ s3))) :=
  (C2_validate_characterization missPipeline).2 danglingTask
    (List.mem_cons_self _ _) "nope" (List.mem_cons_self _ _) (by decide)

end AIBuilderHub
